import Mathlib

/-!
Shallow embedding of `src/resume.py` (class `ResumeParser`) and proofs about it.

The embedding translates each method of the source into a Lean definition:

* `_clean_text`   — `re.sub('\s+', ' ', text)`, then `re.sub('[^a-zA-Z0-9\s\.\-,]', '', text)`,
  then `text.strip()`.
* `_extract_experience` — the date-range regex scan via `re.finditer`.
* `rank_resumes`  — TF-IDF fitted on the single-document corpus `[job_description]`,
  cosine similarity per resume, stable descending sort.
* the entity tagger — the spaCy `EntityRuler` pipeline is an external library,
  not part of this repository's source; it is modelled from the spec (see below).

Python/sklearn behaviours made explicit here:

* `re` character classes `\s` are modelled over the ASCII whitespace characters.
* sklearn's `TfidfVectorizer` with default settings, fitted on the one-document
  corpus `[job_description]`, assigns every vocabulary term the idf value
  `ln((1+1)/(1+1)) + 1 = 1`, so the TF-IDF vector of a document is exactly its
  vector of raw term counts over the job description's vocabulary (up to the L2
  normalisation that cosine similarity performs anyway).  Hence the cosine score
  equals `dot (cJob, cRes) / (‖cJob‖ * ‖cRes‖)` on integer count vectors, and its
  square is a rational number that we compute exactly (`sqScore`).  The real
  score is `Real.sqrt` of that rational (`realScore`), since all counts are
  non-negative.  sklearn treats a zero-magnitude vector as yielding score 0,
  which agrees with `Real.sqrt (q / 0) = 0` under Lean's division conventions.
* `TfidfVectorizer.fit` raises (`empty vocabulary`) when the job description
  tokenises to nothing, which is the spec's `InvalidInputError`; this happens
  before any resume is scored.
-/

namespace ResumeParser

/-! ### Text normalizer: `_clean_text` -/

/-- ASCII whitespace, the characters matched by the regex class `\s` here. -/
def isWS (c : Char) : Bool :=
  c = ' ' || c = '\t' || c = '\n' || c = '\x0d' || c = '\x0b' || c = '\x0c'

/-- Embedding of `re.sub('\s+', ' ', text)`: replace every maximal run of
whitespace by a single space.  The flag records whether we are currently inside
a whitespace run whose single replacement space was already emitted. -/
def collapseWS (inRun : Bool) : List Char → List Char
  | [] => []
  | c :: cs =>
    if isWS c then
      if inRun then collapseWS true cs else ' ' :: collapseWS true cs
    else
      c :: collapseWS false cs

/-- The characters kept by `re.sub('[^a-zA-Z0-9\s\.\-,]', '', text)`. -/
def keepChar (c : Char) : Bool :=
  c.isAlpha || c.isDigit || isWS c || c = '.' || c = '-' || c = ','

/-- Remove trailing whitespace (the right half of Python's `str.strip()`). -/
def rstripWS : List Char → List Char
  | [] => []
  | c :: cs =>
    match rstripWS cs with
    | [] => if isWS c then [] else [c]
    | t => c :: t

/-- The three steps of `_clean_text` on a character list: collapse whitespace
runs to a single space, remove characters outside `[a-zA-Z0-9\s.\-,]`, then
strip leading and trailing whitespace. -/
def cleanList (l : List Char) : List Char :=
  rstripWS ((List.filter keepChar (collapseWS false l)).dropWhile isWS)

/-- Embedding of `ResumeParser._clean_text`. -/
def _clean_text (s : String) : String :=
  String.mk (cleanList s.data)

example : _clean_text "a @ b" = "a  b" := by decide
example : _clean_text (_clean_text "a @ b") = "a b" := by decide
example : _clean_text "  hello,\t world! " = "hello, world" := by decide

/-! ### Shape predicates on character lists -/

/-- The characters permitted in normalizer output by the spec: ASCII letters,
digits, space, period, comma, hyphen. -/
def allowedOut (c : Char) : Bool :=
  c.isAlpha || c.isDigit || c = ' ' || c = '.' || c = ',' || c = '-'

/-- Every whitespace character in the list is a plain space. -/
def wsIsSpace (l : List Char) : Bool := l.all (fun c => !isWS c || c = ' ')

/-- No two adjacent space characters. -/
def noDoubleSpace : List Char → Bool
  | a :: b :: rest => !(isWS a && isWS b) && noDoubleSpace (b :: rest)
  | _ => true

/-- The first character, when present, is not whitespace. -/
def headNotWS : List Char → Bool
  | [] => true
  | c :: _ => !isWS c

/-- The last character, when present, is not whitespace. -/
def lastNotWS : List Char → Bool
  | [] => true
  | [c] => !isWS c
  | _ :: c :: cs => lastNotWS (c :: cs)

/-! ### Lemmas about the normalizer pipeline -/

theorem mem_collapseWS {c : Char} : ∀ {b : Bool} {l : List Char},
    c ∈ collapseWS b l → c = ' ' ∨ c ∈ l := by
  intro b l
  induction l generalizing b with
  | nil => intro h; simp [collapseWS] at h
  | cons a as ih =>
    intro h
    simp only [collapseWS] at h
    by_cases ha : isWS a
    · simp only [ha, if_true] at h
      cases b with
      | true =>
        rcases ih h with h' | h'
        · exact Or.inl h'
        · exact Or.inr (List.mem_cons_of_mem _ h')
      | false =>
        simp only [Bool.false_eq_true, if_false] at h
        rcases List.mem_cons.mp h with h' | h'
        · exact Or.inl h'
        · rcases ih h' with h'' | h''
          · exact Or.inl h''
          · exact Or.inr (List.mem_cons_of_mem _ h'')
    · simp only [ha, if_false] at h
      rcases List.mem_cons.mp h with h' | h'
      · exact Or.inr (h' ▸ List.mem_cons_self a as)
      · rcases ih h' with h'' | h''
        · exact Or.inl h''
        · exact Or.inr (List.mem_cons_of_mem _ h'')

theorem collapseWS_ws_eq_space {c : Char} : ∀ {b : Bool} {l : List Char},
    c ∈ collapseWS b l → isWS c → c = ' ' := by
  intro b l
  induction l generalizing b with
  | nil => intro h; simp [collapseWS] at h
  | cons a as ih =>
    intro h hws
    simp only [collapseWS] at h
    by_cases ha : isWS a
    · simp only [ha, if_true] at h
      cases b with
      | true => exact ih h hws
      | false =>
        simp only [Bool.false_eq_true, if_false] at h
        rcases List.mem_cons.mp h with h' | h'
        · exact h'
        · exact ih h' hws
    · simp only [ha, if_false] at h
      rcases List.mem_cons.mp h with h' | h'
      · exact absurd (h' ▸ hws) (by simpa using ha)
      · exact ih h' hws

theorem headNotWS_collapseWS_true : ∀ {l : List Char},
    headNotWS (collapseWS true l) = true := by
  intro l
  induction l with
  | nil => rfl
  | cons a as ih =>
    simp only [collapseWS]
    by_cases ha : isWS a
    · simpa [ha] using ih
    · simp [ha, headNotWS]

theorem noDoubleSpace_cons_of_not_ws {c : Char} {l : List Char}
    (hc : isWS c = false) (hl : noDoubleSpace l = true) :
    noDoubleSpace (c :: l) = true := by
  cases l with
  | nil => rfl
  | cons d ds => simp [noDoubleSpace, hc, hl]

theorem noDoubleSpace_cons_of_headNotWS {c : Char} {l : List Char}
    (hl : headNotWS l = true) (h : noDoubleSpace l = true) :
    noDoubleSpace (c :: l) = true := by
  cases l with
  | nil => rfl
  | cons d ds =>
    simp only [headNotWS] at hl
    simp [noDoubleSpace, hl, h]

theorem noDoubleSpace_collapseWS : ∀ {b : Bool} {l : List Char},
    noDoubleSpace (collapseWS b l) = true := by
  intro b l
  induction l generalizing b with
  | nil => rfl
  | cons a as ih =>
    simp only [collapseWS]
    by_cases ha : isWS a
    · simp only [ha, if_true]
      cases b with
      | true => exact ih
      | false =>
        simp only [Bool.false_eq_true, if_false]
        exact noDoubleSpace_cons_of_headNotWS headNotWS_collapseWS_true ih
    · simp only [ha, if_false]
      exact noDoubleSpace_cons_of_not_ws (by simpa using ha) ih

theorem noDoubleSpace_tail {c : Char} {l : List Char}
    (h : noDoubleSpace (c :: l) = true) : noDoubleSpace l = true := by
  cases l with
  | nil => rfl
  | cons d ds => simp only [noDoubleSpace, Bool.and_eq_true] at h; exact h.2

theorem headNotWS_of_noDoubleSpace_cons {c : Char} {l : List Char}
    (hc : isWS c = true) (h : noDoubleSpace (c :: l) = true) :
    headNotWS l = true := by
  cases l with
  | nil => rfl
  | cons d ds =>
    simp only [noDoubleSpace, Bool.and_eq_true] at h
    have := h.1
    simp only [headNotWS]
    cases hd : isWS d with
    | false => rfl
    | true => rw [hc, hd] at this; simp at this

theorem collapseWS_eq_self : ∀ {l : List Char},
    noDoubleSpace l = true → wsIsSpace l = true →
    (collapseWS false l = l ∧ (headNotWS l = true → collapseWS true l = l)) := by
  intro l
  induction l with
  | nil => exact fun _ _ => ⟨rfl, fun _ => rfl⟩
  | cons a as ih =>
    intro hnd hws
    have hws' : wsIsSpace as = true := by
      simp only [wsIsSpace, List.all_cons, Bool.and_eq_true] at hws
      exact hws.2
    have hnd' : noDoubleSpace as = true := noDoubleSpace_tail hnd
    constructor
    · cases ha : isWS a with
      | true =>
        have haS : a = ' ' := by
          simp only [wsIsSpace, List.all_cons, Bool.and_eq_true] at hws
          have := hws.1
          rw [ha] at this
          simpa using this
        have hhead : headNotWS as = true := headNotWS_of_noDoubleSpace_cons ha hnd
        simp only [collapseWS, ha, if_true]
        rw [(ih hnd' hws').2 hhead, haS]
        simp
      | false =>
        simp only [collapseWS, ha]
        rw [(ih hnd' hws').1]
        simp
    · intro hh
      simp only [headNotWS] at hh
      have ha : isWS a = false := by simpa using hh
      simp only [collapseWS, ha]
      rw [(ih hnd' hws').1]
      simp

theorem mem_rstripWS {c : Char} : ∀ {l : List Char}, c ∈ rstripWS l → c ∈ l := by
  intro l
  induction l with
  | nil => intro h; simp [rstripWS] at h
  | cons a as ih =>
    intro h
    simp only [rstripWS] at h
    cases hr : rstripWS as with
    | nil =>
      rw [hr] at h
      by_cases ha : isWS a
      · simp [ha] at h
      · simp only [ha, if_false] at h
        rcases List.mem_singleton.mp h with h'
        exact h' ▸ List.mem_cons_self a as
    | cons t ts =>
      rw [hr] at h
      rcases List.mem_cons.mp h with h' | h'
      · exact h' ▸ List.mem_cons_self a as
      · exact List.mem_cons_of_mem _ (ih (hr ▸ h'))

theorem lastNotWS_rstripWS : ∀ {l : List Char}, lastNotWS (rstripWS l) = true := by
  intro l
  induction l with
  | nil => rfl
  | cons a as ih =>
    simp only [rstripWS]
    cases hr : rstripWS as with
    | nil =>
      by_cases ha : isWS a
      · simp [ha, lastNotWS]
      · simp [ha, lastNotWS]
    | cons t ts =>
      rw [hr] at ih
      simpa [lastNotWS] using ih

theorem rstripWS_head_eq : ∀ {l : List Char},
    rstripWS l = [] ∨ (rstripWS l).head? = l.head? := by
  intro l
  cases l with
  | nil => exact Or.inl rfl
  | cons a as =>
    simp only [rstripWS]
    cases hr : rstripWS as with
    | nil =>
      by_cases ha : isWS a
      · simp [ha]
      · simp [ha]
    | cons t ts => simp

theorem headNotWS_rstripWS {l : List Char} (h : headNotWS l = true) :
    headNotWS (rstripWS l) = true := by
  rcases rstripWS_head_eq (l := l) with he | he
  · rw [he]; rfl
  · cases hr : rstripWS l with
    | nil => rfl
    | cons t ts =>
      rw [hr] at he
      cases l with
      | nil => simp [rstripWS] at hr
      | cons a as =>
        simp only [List.head?] at he
        have : t = a := by injection he
        simp only [headNotWS, this]
        simpa [headNotWS] using h

theorem noDoubleSpace_rstripWS : ∀ {l : List Char},
    noDoubleSpace l = true → noDoubleSpace (rstripWS l) = true := by
  intro l
  induction l with
  | nil => intro _; rfl
  | cons a as ih =>
    intro h
    simp only [rstripWS]
    cases hr : rstripWS as with
    | nil =>
      cases ha : isWS a with
      | true => rfl
      | false => rfl
    | cons t ts =>
      have hnd' : noDoubleSpace (rstripWS as) = true := ih (noDoubleSpace_tail h)
      rw [hr] at hnd'
      rcases rstripWS_head_eq (l := as) with he | he
      · rw [he] at hr; exact absurd hr (by simp)
      · rw [hr] at he
        cases as with
        | nil => simp [rstripWS] at hr
        | cons b bs =>
          simp only [List.head?] at he
          have htb : t = b := by injection he
          simp only [noDoubleSpace, Bool.and_eq_true] at h ⊢
          exact ⟨htb ▸ h.1, hnd'⟩

theorem rstripWS_cons_of_ne_nil {c : Char} {l : List Char} (h : rstripWS l ≠ []) :
    rstripWS (c :: l) = c :: rstripWS l := by
  cases hr : rstripWS l with
  | nil => exact absurd hr h
  | cons t ts => simp only [rstripWS, hr]

theorem rstripWS_eq_self : ∀ {l : List Char}, lastNotWS l = true → rstripWS l = l := by
  intro l
  induction l with
  | nil => intro _; rfl
  | cons a as ih =>
    intro h
    cases as with
    | nil =>
      simp only [lastNotWS] at h
      simp [rstripWS, show isWS a = false by simpa using h]
    | cons b bs =>
      have h' : lastNotWS (b :: bs) = true := by simpa [lastNotWS] using h
      have key : rstripWS (b :: bs) = b :: bs := ih h'
      rw [rstripWS_cons_of_ne_nil (by rw [key]; simp), key]

theorem headNotWS_dropWhile : ∀ {l : List Char},
    headNotWS (l.dropWhile isWS) = true := by
  intro l
  induction l with
  | nil => rfl
  | cons a as ih =>
    by_cases ha : isWS a
    · simpa [List.dropWhile, ha] using ih
    · simp [List.dropWhile, ha, headNotWS]

theorem dropWhile_eq_self_of_headNotWS {l : List Char} (h : headNotWS l = true) :
    l.dropWhile isWS = l := by
  cases l with
  | nil => rfl
  | cons a as =>
    simp only [headNotWS] at h
    simp [List.dropWhile, show isWS a = false by simpa using h]

theorem mem_dropWhileWS {c : Char} {l : List Char} (h : c ∈ l.dropWhile isWS) :
    c ∈ l := (List.dropWhile_sublist isWS).mem h

theorem noDoubleSpace_dropWhile : ∀ {l : List Char},
    noDoubleSpace l = true → noDoubleSpace (l.dropWhile isWS) = true := by
  intro l
  induction l with
  | nil => intro _; rfl
  | cons a as ih =>
    intro h
    by_cases ha : isWS a
    · simpa [List.dropWhile, ha] using ih (noDoubleSpace_tail h)
    · simpa [List.dropWhile, ha] using h

theorem keepChar_space : keepChar ' ' = true := by decide

theorem mem_cleanList {c : Char} {l : List Char} (h : c ∈ cleanList l) :
    keepChar c = true ∧ (isWS c = true → c = ' ') ∧ (c = ' ' ∨ c ∈ l) := by
  have h1 : c ∈ (List.filter keepChar (collapseWS false l)).dropWhile isWS :=
    mem_rstripWS h
  have h2 : c ∈ List.filter keepChar (collapseWS false l) := mem_dropWhileWS h1
  have h3 := List.mem_filter.mp h2
  exact ⟨h3.2, fun hws => collapseWS_ws_eq_space h3.1 hws, mem_collapseWS h3.1⟩

theorem allowedOut_of_keep {c : Char} (hk : keepChar c = true)
    (hw : isWS c = true → c = ' ') : allowedOut c = true := by
  by_cases hws : isWS c
  · rw [hw hws]; decide
  · simp only [keepChar, Bool.or_eq_true] at hk
    rcases hk with ((((h | h) | h) | h) | h) | h
    · simp [allowedOut, h]
    · simp [allowedOut, h]
    · exact absurd h hws
    · simp [allowedOut, h]
    · simp [allowedOut, h]
    · simp [allowedOut, h]

theorem headNotWS_cleanList (l : List Char) : headNotWS (cleanList l) = true :=
  headNotWS_rstripWS headNotWS_dropWhile

theorem lastNotWS_cleanList (l : List Char) : lastNotWS (cleanList l) = true :=
  lastNotWS_rstripWS

theorem cleanList_idem_of_kept (l : List Char) (h : ∀ c ∈ l, keepChar c = true) :
    cleanList (cleanList l) = cleanList l := by
  have hcoll : ∀ c ∈ collapseWS false l, keepChar c = true := by
    intro c hc
    rcases mem_collapseWS hc with rfl | hc'
    · exact keepChar_space
    · exact h c hc'
  have hfilt : List.filter keepChar (collapseWS false l) = collapseWS false l :=
    List.filter_eq_self.mpr hcoll
  have hm : cleanList l = rstripWS ((collapseWS false l).dropWhile isWS) := by
    rw [cleanList, hfilt]
  have hnd : noDoubleSpace (cleanList l) = true := by
    rw [hm]
    exact noDoubleSpace_rstripWS (noDoubleSpace_dropWhile noDoubleSpace_collapseWS)
  have hws : wsIsSpace (cleanList l) = true := by
    rw [wsIsSpace, List.all_eq_true]
    intro c hc
    rcases (mem_cleanList hc).2.1 with hw
    by_cases hcw : isWS c
    · simp [hw hcw]
    · simp [hcw]
  have hkeep : ∀ c ∈ cleanList l, keepChar c = true :=
    fun c hc => (mem_cleanList hc).1
  rw [cleanList, (collapseWS_eq_self hnd hws).1, List.filter_eq_self.mpr hkeep,
    dropWhile_eq_self_of_headNotWS (headNotWS_cleanList l),
    rstripWS_eq_self (lastNotWS_cleanList l)]

/-- The claim C2 fails on the code: `_clean_text` is not idempotent.  On the
input `"a @ b"`, the first pass removes the forbidden `'@'` that separated two
(already collapsed) spaces, leaving `"a  b"`; a second pass collapses the
newly adjacent spaces to `"a b"`. -/
theorem normalize_not_idempotent_cex :
    _clean_text "a @ b" = "a  b" ∧
      _clean_text (_clean_text "a @ b") ≠ _clean_text "a @ b" := by
  constructor
  · decide
  · decide

/-- Claim C2, amended: normalization is idempotent on every string none of
whose characters is removed by the forbidden-character filter, i.e. every
character is in `[a-zA-Z0-9\s.\-,]`.  (The counterexample
`normalize_not_idempotent_cex` shows idempotence fails exactly when a removed
character separates two whitespace runs.) -/
theorem normalize_idempotent_on_kept_alphabet (s : String)
    (h : s.data.all keepChar = true) :
    _clean_text (_clean_text s) = _clean_text s := by
  have := cleanList_idem_of_kept s.data (List.all_eq_true.mp h)
  simp only [_clean_text]
  rw [this]

/-- Witness for `normalize_idempotent_on_kept_alphabet` at a concrete input. -/
theorem normalize_idempotent_on_kept_alphabet_witness :
    ("ab  cd-e, f.".data.all ResumeParser.keepChar = true) ∧
      _clean_text (_clean_text "ab  cd-e, f.") = _clean_text "ab  cd-e, f." :=
  ⟨by decide, normalize_idempotent_on_kept_alphabet "ab  cd-e, f." (by decide)⟩

/-- The claim C3 fails on the code: the output of `_clean_text` can contain two
consecutive spaces, because forbidden characters are removed only after
whitespace runs are collapsed. -/
theorem normalize_double_space_cex :
    _clean_text "a @ b" = "a  b" ∧
      noDoubleSpace (_clean_text "a @ b").data = false := by
  constructor
  · decide
  · decide

/-- Claim C3, amended: for every input string, the output of `_clean_text`
contains only characters from `[A-Za-z0-9 .,-]` and has no leading or trailing
whitespace.  (The "no two consecutive spaces" part of the claim is false, see
`normalize_double_space_cex`; the character-set and trimming parts hold.) -/
theorem normalize_charset_and_trimmed (s : String) :
    ((_clean_text s).data.all allowedOut && headNotWS (_clean_text s).data
      && lastNotWS (_clean_text s).data) = true := by
  have hall : (_clean_text s).data.all allowedOut = true := by
    rw [List.all_eq_true]
    intro c hc
    have hm := mem_cleanList (l := s.data) hc
    exact allowedOut_of_keep hm.1 hm.2.1
  have hh : headNotWS (_clean_text s).data = true := headNotWS_cleanList s.data
  have hl : lastNotWS (_clean_text s).data = true := lastNotWS_cleanList s.data
  rw [hall, hh, hl]
  rfl

/-! ### Similarity ranker: `rank_resumes` -/

/-- The resume record built by `parse_resume` (plus the caller-supplied
`name`), as consumed by `rank_resumes`.  Only `raw_text` is read by ranking. -/
structure ResumeRecord where
  name : String
  skills : List String
  education : List String
  experience : List String
  raw_text : String
deriving DecidableEq, Repr

/-- The error raised when the job description yields an empty vocabulary
(sklearn's `empty vocabulary` ValueError; the spec's `InvalidInputError`). -/
inductive RankError
  | invalidInput
deriving DecidableEq, Repr

/-- A word character of sklearn's default token regex `\b\w\w+\b` (ASCII). -/
def wordChar (c : Char) : Bool := c.isAlphanum || c = '_'

/-- Maximal runs of word characters; `cur` holds the current run reversed. -/
def tokenRuns (cur : List Char) : List Char → List (List Char)
  | [] => if cur.isEmpty then [] else [cur.reverse]
  | c :: cs =>
    if wordChar c then tokenRuns (c :: cur) cs
    else if cur.isEmpty then tokenRuns [] cs else cur.reverse :: tokenRuns [] cs

/-- Embedding of `TfidfVectorizer`'s analyzer with default settings: lowercase
the document, then keep every maximal run of word characters of length at
least 2 (the token regex `\b\w\w+\b`). -/
def tokenize (s : String) : List String :=
  ((tokenRuns [] (s.data.map Char.toLower)).filter (fun t => 2 ≤ t.length)).map
    (fun t => String.mk t)

/-- Dot product of the count vectors of two token lists over a vocabulary.
Term counts are natural numbers, so this is a natural number. -/
def dotCounts (vocab : List String) (a b : List String) : ℕ :=
  (vocab.map (fun t => a.count t * b.count t)).sum

/-- A score is stored as an exact unreduced fraction `(numerator, denominator)`
of natural numbers: the square of the cosine score the code computes.  The
cosine score itself is `realScore` of this pair. -/
abbrev Frac : Type := ℕ × ℕ

/-- The squared cosine score of a resume text against the job description.
With the vectorizer fitted on the one-document corpus `[jd]` every idf weight
is `ln(2/2) + 1 = 1`, so the score the code computes is
`dot(cJob,cRes) / (‖cJob‖·‖cRes‖)` on count vectors over `jd`'s vocabulary;
its square is the exact fraction `dot² / (‖cJob‖²·‖cRes‖²)` stored here. -/
def sqScore (jd text : String) : Frac :=
  (dotCounts ((tokenize jd).dedup) (tokenize jd) (tokenize text) ^ 2,
    dotCounts ((tokenize jd).dedup) (tokenize jd) (tokenize jd) *
      dotCounts ((tokenize jd).dedup) (tokenize text) (tokenize text))

/-- The rational value of a stored fraction, as a real number.  Lean's
`x / 0 = 0` convention coincides with sklearn's treatment of zero-magnitude
vectors in `cosine_similarity`. -/
noncomputable def fracVal (x : Frac) : ℝ := (x.1 : ℝ) / (x.2 : ℝ)

/-- The cosine score the code reports: the square root of the stored squared
score (all counts are non-negative, so the cosine is this square root). -/
noncomputable def realScore (x : Frac) : ℝ := Real.sqrt (fracVal x)

/-- Decidable comparison of the real values of two stored fractions: the
value of `a` is zero (numerator or denominator zero), or both values are
positive and cross-multiplication decides.  `fracLE_iff` proves this agrees
with `fracVal a ≤ fracVal b`, hence with comparing the float scores. -/
def fracLE (a b : Frac) : Bool :=
  a.1 = 0 || a.2 = 0 || (!(b.1 = 0 || b.2 = 0) && a.1 * b.2 ≤ b.1 * a.2)

/-- Decidable equality of the real values of two stored fractions. -/
def fracEQ (a b : Frac) : Bool := fracLE a b && fracLE b a

/-- Stable insertion for descending score order: the new element goes in
front of the first entry whose score is not larger.  Inserting input-earlier
elements last (see `sortDesc`) reproduces Python's stable
`sorted(..., key=score, reverse=True)`. -/
def insertDesc {α : Type} (p : α × Frac) : List (α × Frac) → List (α × Frac)
  | [] => [p]
  | q :: qs => if fracLE q.2 p.2 then p :: q :: qs else q :: insertDesc p qs

/-- Stable sort by score descending (insertion sort, inserting from the
right so earlier input elements are placed before equal-scored later ones). -/
def sortDesc {α : Type} : List (α × Frac) → List (α × Frac)
  | [] => []
  | p :: ps => insertDesc p (sortDesc ps)

/-- The (resume, squared score) pairs in input order — the list the code
builds before sorting. -/
def scorePairs (resumes : List ResumeRecord) (jd : String) :
    List (ResumeRecord × Frac) :=
  resumes.map (fun r => (r, sqScore jd r.raw_text))

/-- Embedding of `ResumeParser.rank_resumes`: fit TF-IDF on the single
document `[job_description]` — which raises when the vocabulary is empty,
before any resume is scored — then score every resume by cosine similarity
against the job description and sort by score descending with Python's stable
sort.  Each returned score is stored as its exact squared fraction
(`realScore` recovers the float the code reports). -/
def rank_resumes (resumes : List ResumeRecord) (job_description : String) :
    Except RankError (List (ResumeRecord × Frac)) :=
  if tokenize job_description = [] then .error .invalidInput
  else .ok (sortDesc (scorePairs resumes job_description))

/-- Helper to build a record whose only relevant field is `raw_text`. -/
def mkResume (t : String) : ResumeRecord := ⟨"", [], [], [], t⟩

instance {ε α : Type} [DecidableEq ε] [DecidableEq α] : DecidableEq (Except ε α) :=
  fun a b =>
    match a, b with
    | .error e, .error f =>
      if h : e = f then .isTrue (by rw [h]) else .isFalse (by simp [h])
    | .error _, .ok _ => .isFalse (by simp)
    | .ok _, .error _ => .isFalse (by simp)
    | .ok x, .ok y =>
      if h : x = y then .isTrue (by rw [h]) else .isFalse (by simp [h])

example : tokenize "Python SQL developer needed" =
    ["python", "sql", "developer", "needed"] := by decide
example : tokenize "a b!" = [] := by decide
example : sqScore "python python sql" "python" = ((4, 5) : ℕ × ℕ) := by decide
example : rank_resumes [mkResume "python", mkResume "excel"] "python developer"
    = .ok [(mkResume "python", ((1, 2) : ℕ × ℕ)), (mkResume "excel", ((0, 0) : ℕ × ℕ))] := by
  decide

/-! ### The stored fractions order exactly as the real scores do -/

theorem fracVal_nonneg (x : Frac) : 0 ≤ fracVal x :=
  div_nonneg (Nat.cast_nonneg x.1) (Nat.cast_nonneg x.2)

theorem fracVal_eq_zero_iff (x : Frac) : fracVal x = 0 ↔ x.1 = 0 ∨ x.2 = 0 := by
  rw [fracVal, div_eq_zero_iff]
  simp [Nat.cast_eq_zero]

theorem fracLE_iff (a b : Frac) : fracLE a b = true ↔ fracVal a ≤ fracVal b := by
  simp only [fracLE, Bool.or_eq_true, Bool.and_eq_true, Bool.not_eq_true',
    Bool.or_eq_false_iff, decide_eq_true_eq, decide_eq_false_iff_not]
  constructor
  · rintro ((h | h) | ⟨⟨hb1, hb2⟩, hle⟩)
    · rw [(fracVal_eq_zero_iff a).mpr (Or.inl h)]
      exact fracVal_nonneg b
    · rw [(fracVal_eq_zero_iff a).mpr (Or.inr h)]
      exact fracVal_nonneg b
    · by_cases ha2 : a.2 = 0
      · rw [(fracVal_eq_zero_iff a).mpr (Or.inr ha2)]
        exact fracVal_nonneg b
      · rw [fracVal, fracVal, div_le_div_iff₀
          (by exact_mod_cast Nat.pos_of_ne_zero ha2)
          (by exact_mod_cast Nat.pos_of_ne_zero hb2)]
        exact_mod_cast hle
  · intro h
    by_cases ha1 : a.1 = 0
    · exact Or.inl (Or.inl ha1)
    by_cases ha2 : a.2 = 0
    · exact Or.inl (Or.inr ha2)
    have hapos : 0 < fracVal a :=
      div_pos (by exact_mod_cast Nat.pos_of_ne_zero ha1)
        (by exact_mod_cast Nat.pos_of_ne_zero ha2)
    have hbpos : 0 < fracVal b := lt_of_lt_of_le hapos h
    have hb1 : b.1 ≠ 0 := by
      intro h0
      rw [(fracVal_eq_zero_iff b).mpr (Or.inl h0)] at hbpos
      exact lt_irrefl 0 hbpos
    have hb2 : b.2 ≠ 0 := by
      intro h0
      rw [(fracVal_eq_zero_iff b).mpr (Or.inr h0)] at hbpos
      exact lt_irrefl 0 hbpos
    refine Or.inr ⟨⟨hb1, hb2⟩, ?_⟩
    rw [fracVal, fracVal, div_le_div_iff₀
      (by exact_mod_cast Nat.pos_of_ne_zero ha2)
      (by exact_mod_cast Nat.pos_of_ne_zero hb2)] at h
    exact_mod_cast h

theorem fracEQ_iff (a b : Frac) : fracEQ a b = true ↔ fracVal a = fracVal b := by
  rw [fracEQ, Bool.and_eq_true, fracLE_iff, fracLE_iff]
  exact ⟨fun h => le_antisymm h.1 h.2, fun h => ⟨le_of_eq h, le_of_eq h.symm⟩⟩

theorem fracLE_total (a b : Frac) (h : fracLE a b = false) : fracLE b a = true := by
  rw [fracLE_iff]
  have := (not_congr (fracLE_iff a b)).mp (by simp [h])
  exact le_of_not_le this

theorem fracLE_trans {a b c : Frac} (h1 : fracLE a b = true)
    (h2 : fracLE b c = true) : fracLE a c = true := by
  rw [fracLE_iff] at h1 h2 ⊢
  exact le_trans h1 h2

theorem realScore_mono {a b : Frac} (h : fracLE a b = true) :
    realScore a ≤ realScore b :=
  Real.sqrt_le_sqrt ((fracLE_iff a b).mp h)

theorem realScore_eq_iff (a b : Frac) :
    realScore a = realScore b ↔ fracEQ a b = true := by
  rw [realScore, realScore, Real.sqrt_inj (fracVal_nonneg a) (fracVal_nonneg b),
    fracEQ_iff]

/-! ### The insertion sort is a stable descending sort -/

theorem insertDesc_eq {α : Type} (p : α × Frac) (l : List (α × Frac)) :
    insertDesc p l = l.takeWhile (fun q => !fracLE q.2 p.2) ++
      p :: l.dropWhile (fun q => !fracLE q.2 p.2) := by
  induction l with
  | nil => rfl
  | cons q qs ih =>
    by_cases h : fracLE q.2 p.2 = true
    · simp [insertDesc, h, List.takeWhile_cons, List.dropWhile_cons]
    · have h' : fracLE q.2 p.2 = false := by simpa using h
      simp [insertDesc, h', List.takeWhile_cons, List.dropWhile_cons, ih]

theorem insertDesc_perm {α : Type} (p : α × Frac) (l : List (α × Frac)) :
    (insertDesc p l).Perm (p :: l) := by
  rw [insertDesc_eq]
  calc (l.takeWhile (fun q => !fracLE q.2 p.2) ++
          p :: l.dropWhile (fun q => !fracLE q.2 p.2)).Perm
        (p :: (l.takeWhile (fun q => !fracLE q.2 p.2) ++
          l.dropWhile (fun q => !fracLE q.2 p.2))) := List.perm_middle
    _ = p :: l := by rw [List.takeWhile_append_dropWhile]

theorem sortDesc_perm {α : Type} (l : List (α × Frac)) : (sortDesc l).Perm l := by
  induction l with
  | nil => exact List.Perm.refl []
  | cons p ps ih => exact (insertDesc_perm p (sortDesc ps)).trans (ih.cons p)

theorem mem_insertDesc {α : Type} {x p : α × Frac} {l : List (α × Frac)} :
    x ∈ insertDesc p l ↔ x = p ∨ x ∈ l := by
  rw [(insertDesc_perm p l).mem_iff, List.mem_cons]

theorem pairwise_insertDesc {α : Type} {p : α × Frac} {l : List (α × Frac)}
    (h : List.Pairwise (fun a b => fracLE b.2 a.2 = true) l) :
    List.Pairwise (fun a b => fracLE b.2 a.2 = true) (insertDesc p l) := by
  induction l with
  | nil => simp [insertDesc]
  | cons q qs ih =>
    rcases List.pairwise_cons.mp h with ⟨hq, hqs⟩
    by_cases hle : fracLE q.2 p.2 = true
    · have : insertDesc p (q :: qs) = p :: q :: qs := by simp [insertDesc, hle]
      rw [this]
      refine List.pairwise_cons.mpr ⟨?_, h⟩
      intro x hx
      rcases List.mem_cons.mp hx with rfl | hx'
      · exact hle
      · exact fracLE_trans (hq x hx') hle
    · have hle' : fracLE q.2 p.2 = false := by simpa using hle
      have : insertDesc p (q :: qs) = q :: insertDesc p qs := by
        simp [insertDesc, hle']
      rw [this]
      refine List.pairwise_cons.mpr ⟨?_, ih hqs⟩
      intro x hx
      rcases mem_insertDesc.mp hx with rfl | hx'
      · exact fracLE_total _ _ hle'
      · exact hq x hx'

theorem sortDesc_sorted {α : Type} (l : List (α × Frac)) :
    List.Pairwise (fun a b => fracLE b.2 a.2 = true) (sortDesc l) := by
  induction l with
  | nil => simp [sortDesc]
  | cons p ps ih => exact pairwise_insertDesc ih

theorem filter_insertDesc {α : Type} (p : α × Frac) (l : List (α × Frac))
    (k : Frac) :
    (insertDesc p l).filter (fun x => fracEQ x.2 k) =
      (if fracEQ p.2 k then [p] else []) ++ l.filter (fun x => fracEQ x.2 k) := by
  rw [insertDesc_eq, List.filter_append, List.filter_cons]
  have hsplit : l.filter (fun x => fracEQ x.2 k) =
      (l.takeWhile (fun q => !fracLE q.2 p.2)).filter (fun x => fracEQ x.2 k) ++
        (l.dropWhile (fun q => !fracLE q.2 p.2)).filter (fun x => fracEQ x.2 k) := by
    rw [← List.filter_append, List.takeWhile_append_dropWhile]
  by_cases hpk : fracEQ p.2 k = true
  · have htake : (l.takeWhile (fun q => !fracLE q.2 p.2)).filter
        (fun x => fracEQ x.2 k) = [] := by
      rw [List.filter_eq_nil_iff]
      intro a ha
      have hgt : (!fracLE a.2 p.2) = true :=
        List.all_eq_true.mp List.all_takeWhile a ha
      have hgt' : ¬ fracVal a.2 ≤ fracVal p.2 := by
        rw [← fracLE_iff]
        simpa using hgt
      simp only [Bool.not_eq_true]
      rw [← Bool.not_eq_true, fracEQ_iff]
      intro heq
      exact hgt' (le_of_eq (heq.trans ((fracEQ_iff p.2 k).mp hpk).symm))
    rw [hsplit, htake]
    simp [hpk]
  · have hpk' : fracEQ p.2 k = false := by simpa using hpk
    rw [hsplit]
    simp [hpk']

theorem sortDesc_filter {α : Type} (l : List (α × Frac)) (k : Frac) :
    (sortDesc l).filter (fun x => fracEQ x.2 k) =
      l.filter (fun x => fracEQ x.2 k) := by
  induction l with
  | nil => rfl
  | cons p ps ih =>
    show (insertDesc p (sortDesc ps)).filter (fun x => fracEQ x.2 k) = _
    rw [filter_insertDesc, ih, List.filter_cons]
    by_cases hpk : fracEQ p.2 k = true
    · rw [if_pos hpk, if_pos (by simpa using hpk)]
      rfl
    · have hpk' : fracEQ p.2 k = false := by simpa using hpk
      rw [hpk', if_neg (by simp [hpk'])]
      rfl

/-! ### Score bounds: Cauchy-Schwarz on the count vectors -/

theorem natSum_eq_zero {l : List ℕ} (h : ∀ x ∈ l, x = 0) : l.sum = 0 := by
  induction l with
  | nil => rfl
  | cons a as ih =>
    rw [List.sum_cons, h a (List.mem_cons_self a as),
      ih (fun x hx => h x (List.mem_cons_of_mem _ hx))]

theorem natSum_zero_mem {l : List ℕ} (h : l.sum = 0) : ∀ x ∈ l, x = 0 := by
  induction l with
  | nil => intro x hx; simp at hx
  | cons a as ih =>
    rw [List.sum_cons, Nat.add_eq_zero] at h
    intro x hx
    rcases List.mem_cons.mp hx with rfl | hx'
    · exact h.1
    · exact ih h.2 x hx'

theorem dotCounts_eq_finset (vocab x y : List String) (h : vocab.Nodup) :
    dotCounts vocab x y = ∑ t ∈ vocab.toFinset, x.count t * y.count t := by
  rw [dotCounts, ← List.sum_toFinset _ h]

theorem dotCounts_cauchy (vocab a b : List String) (h : vocab.Nodup) :
    dotCounts vocab a b ^ 2 ≤ dotCounts vocab a a * dotCounts vocab b b := by
  rw [dotCounts_eq_finset vocab a b h, dotCounts_eq_finset vocab a a h,
    dotCounts_eq_finset vocab b b h]
  have hcs := Finset.sum_mul_sq_le_sq_mul_sq vocab.toFinset
    (fun t => a.count t) (fun t => b.count t)
  simpa only [pow_two] using hcs

theorem dotCounts_eq_zero_right (vocab a b : List String)
    (h : dotCounts vocab b b = 0) : dotCounts vocab a b = 0 := by
  rw [dotCounts] at h ⊢
  apply natSum_eq_zero
  intro x hx
  rcases List.mem_map.mp hx with ⟨t, ht, rfl⟩
  have h0 : b.count t * b.count t = 0 :=
    natSum_zero_mem h _ (List.mem_map_of_mem _ ht)
  have hb : b.count t = 0 := by
    rcases Nat.mul_eq_zero.mp h0 with h' | h' <;> exact h'
  rw [hb, Nat.mul_zero]

theorem fracVal_sqScore_le_one (jd text : String) :
    fracVal (sqScore jd text) ≤ 1 := by
  have hcs := dotCounts_cauchy ((tokenize jd).dedup) (tokenize jd)
    (tokenize text) (List.nodup_dedup _)
  by_cases hd : dotCounts ((tokenize jd).dedup) (tokenize jd) (tokenize jd) *
      dotCounts ((tokenize jd).dedup) (tokenize text) (tokenize text) = 0
  · rw [fracVal, sqScore]
    simp only [hd]
    norm_num
  · rw [fracVal, sqScore]
    have hpos : (0 : ℝ) <
        ((dotCounts ((tokenize jd).dedup) (tokenize jd) (tokenize jd) *
          dotCounts ((tokenize jd).dedup) (tokenize text) (tokenize text) : ℕ) : ℝ) := by
      exact_mod_cast Nat.pos_of_ne_zero hd
    rw [div_le_one hpos]
    exact_mod_cast hcs

theorem realScore_sqScore_nonneg (jd text : String) :
    0 ≤ realScore (sqScore jd text) := Real.sqrt_nonneg _

theorem realScore_sqScore_le_one (jd text : String) :
    realScore (sqScore jd text) ≤ 1 := by
  rw [realScore]
  exact Real.sqrt_le_one.mpr (fracVal_sqScore_le_one jd text)

theorem realScore_sqScore_zero_of_no_overlap (jd text : String)
    (h : dotCounts ((tokenize jd).dedup) (tokenize text) (tokenize text) = 0) :
    realScore (sqScore jd text) = 0 := by
  have hD : dotCounts ((tokenize jd).dedup) (tokenize jd) (tokenize text) = 0 :=
    dotCounts_eq_zero_right _ _ _ h
  rw [realScore, fracVal, sqScore]
  simp [hD]

/-! ### Dissecting a successful ranking call -/

theorem rank_resumes_ok {resumes : List ResumeRecord} {jd : String}
    {out : List (ResumeRecord × Frac)}
    (h : rank_resumes resumes jd = .ok out) :
    tokenize jd ≠ [] ∧ sortDesc (scorePairs resumes jd) = out := by
  rw [rank_resumes] at h
  by_cases ht : tokenize jd = []
  · rw [if_pos ht] at h
    simp at h
  · rw [if_neg ht] at h
    exact ⟨ht, by simpa using h⟩

theorem mem_rank_output {resumes : List ResumeRecord} {jd : String}
    {out : List (ResumeRecord × Frac)} {p : ResumeRecord × Frac}
    (h : rank_resumes resumes jd = .ok out) (hp : p ∈ out) :
    p.2 = sqScore jd p.1.raw_text ∧ p.1 ∈ resumes := by
  obtain ⟨-, hout⟩ := rank_resumes_ok h
  rw [← hout] at hp
  have hp' : p ∈ scorePairs resumes jd := (sortDesc_perm _).mem_iff.mp hp
  rcases List.mem_map.mp hp' with ⟨r, hr, rfl⟩
  exact ⟨rfl, hr⟩

/-! ### Tokenization of blank strings -/

theorem isWS_not_wordChar {c : Char} (h : isWS c = true) :
    wordChar c.toLower = false := by
  have hc : c = ' ' ∨ c = '\t' ∨ c = '\n' ∨ c = '\x0d' ∨ c = '\x0b' ∨
      c = '\x0c' := by
    simpa [isWS, Bool.or_eq_true, decide_eq_true_eq, or_assoc] using h
  rcases hc with rfl | rfl | rfl | rfl | rfl | rfl <;> decide

theorem tokenRuns_nil_of_no_word {l : List Char}
    (h : ∀ c ∈ l, wordChar c = false) : tokenRuns [] l = [] := by
  induction l with
  | nil => rfl
  | cons c cs ih =>
    have hc := h c (List.mem_cons_self c cs)
    rw [tokenRuns, if_neg (by simp [hc])]
    simpa using ih (fun x hx => h x (List.mem_cons_of_mem _ hx))

theorem tokenize_eq_nil_of_all_ws (s : String) (h : s.data.all isWS = true) :
    tokenize s = [] := by
  rw [tokenize]
  have hruns : tokenRuns [] (s.data.map Char.toLower) = [] := by
    apply tokenRuns_nil_of_no_word
    intro c hc
    rcases List.mem_map.mp hc with ⟨d, hd, rfl⟩
    exact isWS_not_wordChar (List.all_eq_true.mp h d hd)
  rw [hruns]
  rfl

/-! ### Claims about the ranker -/

/-- Claim C1: for every input sequence of resumes, if the job description is
empty or whitespace-only (equivalently: empty after trimming), ranking fails
with `InvalidInputError` and performs no scoring — the embedded
`rank_resumes` returns the error from the vectorizer-fit stage, before
`scorePairs` is evaluated, so no score is computed for any resume. -/
theorem rank_resumes_error_on_blank_job_description
    (resumes : List ResumeRecord) (jd : String)
    (h : jd.data.all isWS = true) :
    rank_resumes resumes jd = .error .invalidInput := by
  rw [rank_resumes, if_pos (tokenize_eq_nil_of_all_ws jd h)]

/-- Witness for `rank_resumes_error_on_blank_job_description`. -/
theorem rank_resumes_error_on_blank_job_description_witness :
    (" \t ".data.all isWS = true) ∧
      rank_resumes [mkResume "python"] " \t " = .error .invalidInput :=
  ⟨by decide,
    rank_resumes_error_on_blank_job_description [mkResume "python"] " \t "
      (by decide)⟩

/-- Claim C9: ranking is deterministic — two calls on identical inputs return
identical outputs (scores and ordering).  The embedded `rank_resumes` is a
pure function of its arguments, as is the modelled sklearn pipeline for a
fixed configuration. -/
theorem rank_resumes_deterministic (r₁ r₂ : List ResumeRecord)
    (j₁ j₂ : String) (hr : r₁ = r₂) (hj : j₁ = j₂) :
    rank_resumes r₁ j₁ = rank_resumes r₂ j₂ := by
  rw [hr, hj]

/-- Witness for `rank_resumes_deterministic`. -/
theorem rank_resumes_deterministic_witness :
    rank_resumes [mkResume "python"] "python developer" =
      rank_resumes [mkResume "python"] "python developer" :=
  rank_resumes_deterministic [mkResume "python"] [mkResume "python"]
    "python developer" "python developer" rfl rfl

/-- Claim C10: a successful ranking call returns exactly one (resume, score)
pair per input resume: the output length equals the input length, the
returned records are a permutation of the input records (equal multisets),
and the empty input yields the empty output. -/
theorem rank_resumes_output_permutes_input (resumes : List ResumeRecord)
    (jd : String) (out : List (ResumeRecord × Frac))
    (h : rank_resumes resumes jd = .ok out) :
    out.length = resumes.length ∧ (out.map Prod.fst).Perm resumes ∧
      (resumes = [] → out = []) := by
  obtain ⟨-, hout⟩ := rank_resumes_ok h
  subst hout
  have hperm := sortDesc_perm (scorePairs resumes jd)
  have hmapfst : (scorePairs resumes jd).map Prod.fst = resumes := by
    rw [scorePairs, List.map_map]
    have hcomp : (Prod.fst ∘ fun r : ResumeRecord =>
        (r, sqScore jd r.raw_text)) = id := funext (fun r => rfl)
    rw [hcomp, List.map_id]
  refine ⟨?_, ?_, ?_⟩
  · rw [hperm.length_eq, scorePairs, List.length_map]
  · have hm := hperm.map Prod.fst
    rw [hmapfst] at hm
    exact hm
  · intro he
    subst he
    rfl

/-- Witness for `rank_resumes_output_permutes_input`. -/
theorem rank_resumes_output_permutes_input_witness :
    ([(mkResume "python", ((1, 2) : ℕ × ℕ)),
        (mkResume "excel", ((0, 0) : ℕ × ℕ))].length =
      [mkResume "python", mkResume "excel"].length) ∧
    (([(mkResume "python", ((1, 2) : ℕ × ℕ)),
        (mkResume "excel", ((0, 0) : ℕ × ℕ))].map Prod.fst).Perm
      [mkResume "python", mkResume "excel"]) ∧
    ([mkResume "python", mkResume "excel"] = ([] : List ResumeRecord) →
      [(mkResume "python", ((1, 2) : ℕ × ℕ)),
        (mkResume "excel", ((0, 0) : ℕ × ℕ))] = []) :=
  rank_resumes_output_permutes_input [mkResume "python", mkResume "excel"]
    "python developer"
    [(mkResume "python", ((1, 2) : ℕ × ℕ)), (mkResume "excel", ((0, 0) : ℕ × ℕ))]
    (by decide)

/-- Claim C4: a successful ranking call returns the (resume, score) pairs
sorted by score descending, and entries with equal scores keep their input
order: for every score value `k`, the sub-list of output entries scoring `k`
equals the sub-list of input-order (resume, score) pairs scoring `k`.  The
last clause identifies equality of reported real scores with the decidable
value equality `fracEQ` used in the stability clause. -/
theorem rank_resumes_sorted_and_stable (resumes : List ResumeRecord)
    (jd : String) (out : List (ResumeRecord × Frac))
    (h : rank_resumes resumes jd = .ok out) :
    List.Pairwise (fun a b => realScore b.2 ≤ realScore a.2) out ∧
      (∀ k : Frac, out.filter (fun x => fracEQ x.2 k) =
        (scorePairs resumes jd).filter (fun x => fracEQ x.2 k)) ∧
      ∀ a ∈ out, ∀ b ∈ out,
        (realScore a.2 = realScore b.2 ↔ fracEQ a.2 b.2 = true) := by
  obtain ⟨-, hout⟩ := rank_resumes_ok h
  subst hout
  refine ⟨?_, ?_, ?_⟩
  · exact (sortDesc_sorted _).imp (fun hab => realScore_mono hab)
  · intro k
    exact sortDesc_filter _ k
  · intro a _ b _
    exact realScore_eq_iff a.2 b.2

/-- Witness for `rank_resumes_sorted_and_stable`. -/
theorem rank_resumes_sorted_and_stable_witness :
    List.Pairwise (fun a b => realScore b.2 ≤ realScore a.2)
      [(mkResume "python", ((1, 2) : ℕ × ℕ)),
        (mkResume "excel", ((0, 0) : ℕ × ℕ))] ∧
      (∀ k : Frac,
        [(mkResume "python", ((1, 2) : ℕ × ℕ)),
          (mkResume "excel", ((0, 0) : ℕ × ℕ))].filter (fun x => fracEQ x.2 k) =
        (scorePairs [mkResume "python", mkResume "excel"]
          "python developer").filter (fun x => fracEQ x.2 k)) ∧
      ∀ a ∈ [(mkResume "python", ((1, 2) : ℕ × ℕ)),
          (mkResume "excel", ((0, 0) : ℕ × ℕ))],
        ∀ b ∈ [(mkResume "python", ((1, 2) : ℕ × ℕ)),
          (mkResume "excel", ((0, 0) : ℕ × ℕ))],
        (realScore a.2 = realScore b.2 ↔ fracEQ a.2 b.2 = true) :=
  rank_resumes_sorted_and_stable [mkResume "python", mkResume "excel"]
    "python developer"
    [(mkResume "python", ((1, 2) : ℕ × ℕ)), (mkResume "excel", ((0, 0) : ℕ × ℕ))]
    (by decide)

/-- Claim C5: every score returned by a successful ranking call lies in
[0, 1]; and a resume whose raw text shares no vocabulary with the job
description — its projected count vector has zero magnitude — receives
exactly score 0. -/
theorem rank_resumes_scores_unit_interval (resumes : List ResumeRecord)
    (jd : String) (out : List (ResumeRecord × Frac))
    (h : rank_resumes resumes jd = .ok out) :
    ∀ p ∈ out, (0 ≤ realScore p.2 ∧ realScore p.2 ≤ 1) ∧
      (dotCounts ((tokenize jd).dedup) (tokenize p.1.raw_text)
          (tokenize p.1.raw_text) = 0 → realScore p.2 = 0) := by
  intro p hp
  obtain ⟨hps, -⟩ := mem_rank_output h hp
  rw [hps]
  exact ⟨⟨realScore_sqScore_nonneg jd p.1.raw_text,
      realScore_sqScore_le_one jd p.1.raw_text⟩,
    fun hz => realScore_sqScore_zero_of_no_overlap jd p.1.raw_text hz⟩

/-- Witness for `rank_resumes_scores_unit_interval`. -/
theorem rank_resumes_scores_unit_interval_witness :
    (0 ≤ realScore ((0, 0) : ℕ × ℕ) ∧ realScore ((0, 0) : ℕ × ℕ) ≤ 1) ∧
      (dotCounts ((tokenize "python developer").dedup)
          (tokenize (mkResume "excel").raw_text)
          (tokenize (mkResume "excel").raw_text) = 0 →
        realScore ((0, 0) : ℕ × ℕ) = 0) :=
  rank_resumes_scores_unit_interval [mkResume "python", mkResume "excel"]
    "python developer"
    [(mkResume "python", ((1, 2) : ℕ × ℕ)), (mkResume "excel", ((0, 0) : ℕ × ℕ))]
    (by decide) (mkResume "excel", ((0, 0) : ℕ × ℕ)) (by decide)

/-! ### Pattern tagger

The source's `_add_custom_patterns` only registers the pattern table with
spaCy's `EntityRuler` (`overwrite_ents=True`); the matching engine itself is
spaCy library code, not part of this repository.  The engine below is
therefore modelled from the spec (section 4.2): case-sensitive literal
matching of each pattern's non-overlapping occurrences, later-registered
patterns overwriting the label of any overlapping earlier span, and
deduplication of the resulting (text, label) pairs. -/

/-- The two entity labels used by the pattern table. -/
inductive Label
  | SKILL
  | DEGREE
deriving DecidableEq, Repr

/-- One row of the pattern configuration table. -/
structure EntityPattern where
  label : Label
  pattern : String
deriving DecidableEq, Repr

/-- A tagged entity: the matched surface text and its label. -/
structure Entity where
  text : String
  label : Label
deriving DecidableEq, Repr

/-- The default pattern table registered by `_add_custom_patterns`, in
registration order. -/
def defaultPatterns : List EntityPattern :=
  [⟨.DEGREE, "BS"⟩, ⟨.DEGREE, "B.Sc"⟩, ⟨.DEGREE, "Bachelors"⟩,
    ⟨.DEGREE, "Masters"⟩, ⟨.DEGREE, "PhD"⟩,
    ⟨.SKILL, "Python"⟩, ⟨.SKILL, "Machine Learning"⟩, ⟨.SKILL, "SQL"⟩]

/-- Does `pat` occur literally at the start of `l`? -/
def litAt (pat l : List Char) : Bool := decide (pat = l.take pat.length)

/-- Start positions of the non-overlapping left-to-right literal occurrences
of `pat` in `text`, scanning from `pos`; `fuel` bounds the scan steps. -/
def occsAux (pat text : List Char) : ℕ → ℕ → List ℕ
  | _, 0 => []
  | pos, fuel + 1 =>
    if litAt pat (text.drop pos) && 0 < pat.length then
      pos :: occsAux pat text (pos + pat.length) fuel
    else
      occsAux pat text (pos + 1) fuel

/-- All non-overlapping occurrences of `pat` in `text`, left to right. -/
def occurrences (pat text : List Char) : List ℕ :=
  occsAux pat text 0 (text.length + 1)

/-- A span of the text with the label assigned to it. -/
structure TagSpan where
  start : ℕ
  len : ℕ
  label : Label
deriving DecidableEq, Repr

/-- Do two (start, length) spans overlap? -/
def spanOverlaps (a b : ℕ × ℕ) : Bool :=
  decide (a.1 < b.1 + b.2) && decide (b.1 < a.1 + a.2)

/-- Modelled from the spec: add one pattern's occurrences to the span
assignment, removing any overlapping earlier span (overwrite-on-conflict:
the later-registered pattern's label wins). -/
def addPattern (text : List Char) (spans : List TagSpan)
    (p : EntityPattern) : List TagSpan :=
  (occurrences p.pattern.data text).foldl
    (fun acc pos =>
      acc.filter
        (fun s => !spanOverlaps (s.start, s.len) (pos, p.pattern.length)) ++
        [⟨pos, p.pattern.length, p.label⟩])
    spans

/-- Modelled from the spec: the entity tagger (spaCy `EntityRuler` pipeline
with `overwrite_ents=True`, absent from this repository's source).  Processes
the patterns in registration order, resolves overlaps in favour of the later
pattern, reads off the surface text of each surviving span, and deduplicates
by (text, label). -/
def tag (patterns : List EntityPattern) (text : String) : List Entity :=
  ((patterns.foldl (addPattern text.data) []).map
    (fun s => Entity.mk (String.mk ((text.data.drop s.start).take s.len))
      s.label)).dedup

/-- The skill list built by `parse_resume`:
`list(set(ent.text for ent in doc.ents if ent.label_ == "SKILL"))`. -/
def parse_skills (text : String) : List String :=
  (((tag defaultPatterns text).filter
    (fun e => e.label == Label.SKILL)).map Entity.text).dedup

/-- Claim C6: when two patterns of different labels match the same span, the
later-registered pattern's label wins: with patterns
`[{SKILL,"X"}, {DEGREE,"X"}]` and text `"X"`, tagging yields exactly one
entity `{text:"X", label:DEGREE}`. -/
theorem tagger_later_pattern_wins :
    tag [⟨.SKILL, "X"⟩, ⟨.DEGREE, "X"⟩] "X" = [⟨"X", .DEGREE⟩] := by decide

/-- Claim C7: the tagger deduplicates by (text, label): its output never
contains a duplicate entity, and tagging `"Python Python"` with the default
configuration yields exactly the one SKILL entity `"Python"`; the
`list(set(...))` in `parse_resume` likewise yields the single skill. -/
theorem tagger_dedups_by_text_and_label :
    (∀ (patterns : List EntityPattern) (text : String),
        (tag patterns text).Nodup) ∧
      tag defaultPatterns "Python Python" = [⟨"Python", .SKILL⟩] ∧
      parse_skills "Python Python" = ["Python"] :=
  ⟨fun _ _ => List.nodup_dedup _, by decide, by decide⟩

/-! ### Experience span extractor: `_extract_experience`

The regex
`(?i)((?:Jan|...|Dec)[a-z\s\-,]*\d{4})[\s\–\-]+(present|(?:Jan|...|Dec)[a-z\s\-,]*\d{4})`
is hand-compiled below.  Its structure makes matching backtracking-free: the
greedy middle class `[a-z\s\-,]*` contains no digits, so it always stops at
the first character outside the class and shrinking it can never make the
following `\d{4}` succeed; the separator class `[\s\–\-]+` contains no letter,
so giving characters back can never make `present` or a month token match.
Classes are modelled over ASCII (`(?i)` makes `[a-z]` match both cases). -/

/-- The twelve month tokens of the regex alternation, lowercase. -/
def monthTokens : List (List Char) :=
  ["jan", "feb", "mar", "apr", "may", "jun", "jul", "aug", "sep", "oct",
    "nov", "dec"].map String.data

/-- Consume one three-letter month token, case-insensitively, at the head of
`l` — the alternation `(?:Jan|Feb|...|Dec)` under `(?i)`. -/
def matchMonth (l : List Char) : Option (List Char) :=
  if monthTokens.any (fun m => decide ((l.take 3).map Char.toLower = m)) then
    some (l.drop 3)
  else none

/-- The character class `[a-z\s\-,]` under `(?i)`. -/
def isMidChar (c : Char) : Bool := c.isAlpha || isWS c || c = '-' || c = ','

/-- The separator class `[\s\–\-]` (whitespace, en-dash, hyphen). -/
def isSepChar (c : Char) : Bool := isWS c || c = '–' || c = '-'

/-- Match the date sub-pattern `(?:Month)[a-z\s\-,]*\d{4}` at the head of
`l`, returning the rest of the text after the four year digits. -/
def matchDatePart (l : List Char) : Option (List Char) :=
  (matchMonth l).bind (fun l1 =>
    let l2 := l1.dropWhile isMidChar
    if (l2.take 4).length = 4 && (l2.take 4).all Char.isDigit then
      some (l2.drop 4)
    else none)

/-- Match the literal `present`, case-insensitively. -/
def matchPresent (l : List Char) : Option (List Char) :=
  if decide ((l.take 7).map Char.toLower = "present".data) then some (l.drop 7)
  else none

/-- Match the whole date-range pattern at the head of `l`: a date part, one
or more separator characters, then `present` or a second date part. -/
def matchRange (l : List Char) : Option (List Char) :=
  (matchDatePart l).bind (fun l1 =>
    let l2 := l1.dropWhile isSepChar
    if l2.length = l1.length then none
    else
      match matchPresent l2 with
      | some l3 => some l3
      | none => matchDatePart l2)

/-- The `re.finditer` scan: try to match at each position from left to
right; on a match, emit the matched substring and continue right after it
(non-overlapping); otherwise advance one character.  `fuel` bounds the scan
(each step strictly shortens the text). -/
def scanRanges : List Char → ℕ → List (List Char)
  | _, 0 => []
  | l, fuel + 1 =>
    match l with
    | [] => []
    | _ :: rest =>
      match matchRange l with
      | some remaining =>
        l.take (l.length - remaining.length) :: scanRanges remaining fuel
      | none => scanRanges rest fuel

/-- Embedding of `ResumeParser._extract_experience`: every non-overlapping
date-range match, left to right, each stripped (`match.group().strip()`). -/
def _extract_experience (s : String) : List String :=
  (scanRanges s.data s.data.length).map
    (fun m => String.mk (rstripWS (m.dropWhile isWS)))

/-- Does the text contain a month token (the only way any match can start)? -/
def hasMonthToken : List Char → Bool
  | [] => false
  | l@(_ :: rest) => (matchMonth l).isSome || hasMonthToken rest

theorem scanRanges_eq_nil {l : List Char} (h : hasMonthToken l = false) :
    ∀ fuel, scanRanges l fuel = [] := by
  intro fuel
  induction fuel generalizing l with
  | zero => rfl
  | succ n ih =>
    cases l with
    | nil => rfl
    | cons c rest =>
      rw [hasMonthToken, Bool.or_eq_false_iff] at h
      have hm : matchMonth (c :: rest) = none :=
        Option.not_isSome_iff_eq_none.mp (by simp [h.1])
      have hd : matchDatePart (c :: rest) = none := by
        rw [matchDatePart, hm]
        rfl
      have hr : matchRange (c :: rest) = none := by
        rw [matchRange, hd]
        rfl
      rw [scanRanges, hr]
      exact ih h.2

example : _extract_experience "Jan 2019 - Present some text Mar 2020 - Apr 2021" =
    ["Jan 2019 - Present", "Mar 2020 - Apr 2021"] := by decide

/-- Claim C8: experience extraction returns each non-overlapping date-range
match, trimmed, in order of appearance; it does not deduplicate repeated
ranges; on the spec's example it yields exactly the two spans in order; and
on text containing no month token it yields the empty sequence. -/
theorem extract_experience_spans :
    (_extract_experience "Jan 2019 - Present some text Mar 2020 - Apr 2021" =
      ["Jan 2019 - Present", "Mar 2020 - Apr 2021"]) ∧
    (_extract_experience "Jan 2019 - Present Jan 2019 - Present" =
      ["Jan 2019 - Present", "Jan 2019 - Present"]) ∧
    ∀ s : String, hasMonthToken s.data = false → _extract_experience s = [] := by
  refine ⟨by decide, by decide, ?_⟩
  intro s h
  rw [_extract_experience, scanRanges_eq_nil h]
  rfl

/-- Witness for `extract_experience_spans` (no month token in the text). -/
theorem extract_experience_spans_witness :
    (hasMonthToken "worked for a while, then left".data = false) ∧
      _extract_experience "worked for a while, then left" = [] :=
  ⟨by decide,
    extract_experience_spans.2.2 "worked for a while, then left" (by decide)⟩

end ResumeParser
